import Mathlib

/-!
Shallow embedding of `src/parser.py` from the ct3-results-streamlit-visualizer
repository, together with theorems settling the specification claims about
score normalization (`clean_score`), embedded-object extraction
(`extract_json_object`) and the merge/sort/rank pipeline
(`parse_html_file_content`).

Python dynamic values are modelled by `PyVal`; a Python exception escaping a
function is modelled by `Option.none` / `Except.error`.  Machine floats are
modelled by `ℚ` (the scores in scope are small decimal literals; no claim in
scope depends on binary rounding, and the nonstandard `Infinity`/`NaN` JSON
constants, which have no finite value, are outside the modelled grammar).
Character classes model the ASCII part of Python's regex classes, which
covers every input the claims mention.
-/

namespace CT3

/-- A Python runtime value as it can appear in this pipeline: `None`,
booleans, ints, floats, strings, lists and string-keyed dicts (the shapes
produced by `json.loads`). -/
inductive PyVal where
  | none
  | bool (b : Bool)
  | int (n : ℤ)
  | float (q : ℚ)
  | str (s : String)
  | list (xs : List PyVal)
  | dict (xs : List (String × PyVal))

/-- Characters stripped by Python `str.strip()` (ASCII whitespace). -/
def pyStripWs (c : Char) : Bool :=
  c == ' ' || c == '\t' || c == '\n' || c == '\r' || c == '\x0b' || c == '\x0c'

/-- Python `s.strip()` on a character list. -/
def pyStrip (cs : List Char) : List Char :=
  ((cs.dropWhile pyStripWs).reverse.dropWhile pyStripWs).reverse

/-- Numeric value of a list of decimal digit characters (empty list gives 0). -/
def digitsVal (cs : List Char) : ℕ :=
  cs.foldl (fun a c => a * 10 + (c.toNat - 48)) 0

/-- Python `float(s)` applied to a nonempty string drawn from digits and dots
(the only strings the regex group `[\d.]+` can produce).  Python accepts at
most one dot and requires at least one digit; otherwise `float` raises
`ValueError`, modelled by `Option.none`. -/
def pyFloatOfRun (cs : List Char) : Option ℚ :=
  if 1 < cs.countP (fun c => c == '.') then Option.none
  else if cs.all (fun c => c == '.') then Option.none
  else
    let ip := cs.takeWhile (fun c => c != '.')
    let fp := (cs.dropWhile (fun c => c != '.')).drop 1
    Option.some ((digitsVal ip : ℚ) + (digitsVal fp : ℚ) / (10 : ℚ) ^ fp.length)

/-- Embedding of `clean_score` (src/parser.py lines 54-82).  `Option.none`
models an uncaught `ValueError` escaping from `float(...)`.  Note Python's
`isinstance(value, (int, float))` is satisfied by booleans, and
`float(True) = 1.0`, `float(False) = 0.0`. -/
def clean_score : PyVal → Option ℚ
  | PyVal.none => Option.some 0
  | PyVal.bool b => Option.some (if b then 1 else 0)
  | PyVal.int n => Option.some (n : ℚ)
  | PyVal.float q => Option.some q
  | PyVal.str s =>
      let t := pyStrip s.toList
      if t = "-".toList ∨ t = [] ∨ t = "NA".toList ∨ t = "N/A".toList then
        Option.some 0
      else
        let run := t.takeWhile (fun c => c.isDigit || c == '.')
        if run = [] then Option.some 0 else pyFloatOfRun run
  | PyVal.list _ => Option.some 0
  | PyVal.dict _ => Option.some 0

/-! ### The object extractor (src/parser.py lines 11-51) -/

/-- Characters matched by the regex class `\s` (ASCII part). -/
def regexWs (c : Char) : Bool :=
  c == ' ' || c == '\t' || c == '\n' || c == '\r' || c == '\x0b' || c == '\x0c'

/-- Length of the maximal leading whitespace run (greedy `\s*`). -/
def wsRun (cs : List Char) : ℕ := (cs.takeWhile regexWs).length

/-- Match the regex `const\s+<nm>\s*=\s*(\{)` at the start of `cs`; on success
return the offset of the opening brace (the position of group 1).  Maximal
whitespace runs coincide with the regex's greedy matching whenever `nm` is a
plain identifier (its first character is not whitespace). -/
def tryMatch (nm cs : List Char) : Option ℕ :=
  if ("const".toList).isPrefixOf cs then
    let r1 := cs.drop 5
    let w1 := wsRun r1
    if w1 = 0 then Option.none
    else
      let r2 := r1.drop w1
      if nm.isPrefixOf r2 then
        let r3 := r2.drop nm.length
        let w2 := wsRun r3
        match r3.drop w2 with
        | '=' :: r5 =>
          let w3 := wsRun r5
          match r5.drop w3 with
          | '\x7b' :: _ => Option.some (5 + w1 + nm.length + w2 + 1 + w3)
          | _ => Option.none
        | _ => Option.none
      else Option.none
  else Option.none

/-- Characters of a plain identifier (as both embedded variable names are). -/
def isIdentChar (c : Char) : Bool := c.isAlphanum || c == '_'

/-- A plain, nonempty identifier; for such names the spliced regex
`const\\s+<nm>\\s*=\\s*(\\x7b)` reads literally. -/
def IsIdent (nm : List Char) : Prop := nm ≠ [] ∧ ∀ c ∈ nm, isIdentChar c = true

/-- A declarative reading of the pattern the code searches for: at position
`i` the text carries `const`, at least one whitespace, the name, optional
whitespace, `=`, optional whitespace and an opening brace. -/
def ConstAssignAt (cs nm : List Char) (i : ℕ) : Prop :=
  ∃ u v w rest,
    cs.drop i = "const".toList ++ (u ++ (nm ++ (v ++ '=' :: (w ++ '\x7b' :: rest)))) ∧
    u ≠ [] ∧ (∀ c ∈ u, regexWs c = true) ∧ (∀ c ∈ v, regexWs c = true) ∧
    (∀ c ∈ w, regexWs c = true)

/-- The same assignment shape with no declaration keyword at all. -/
def BareAssignAt (cs nm : List Char) (i : ℕ) : Prop :=
  ∃ v w rest,
    cs.drop i = nm ++ (v ++ '=' :: (w ++ '\x7b' :: rest)) ∧
    (∀ c ∈ v, regexWs c = true) ∧ (∀ c ∈ w, regexWs c = true)

/-- The spec's pattern (section 4.1), stated from its words for comparison
with the code: the name, OPTIONALLY preceded by a declaration keyword, then
`=` and an opening brace with flexible whitespace. -/
def SpecAssignAt (cs nm : List Char) (i : ℕ) : Prop :=
  ConstAssignAt cs nm i ∨ BareAssignAt cs nm i

/-- `re.search`: try the pattern at each position left to right; return the
position of the opening brace of the first (leftmost) match. -/
def findBrace (nm : List Char) : List Char → Option ℕ
  | [] => Option.none
  | c :: cs =>
    match tryMatch nm (c :: cs) with
    | Option.some k => Option.some k
    | Option.none => (findBrace nm cs).map (· + 1)

/-- The brace-depth scan of src/parser.py lines 33-43: starting at absolute
position `i` with current depth `depth`, return `i + 1` of the character at
which the depth returns to zero, or `Option.none` when the input ends first
(the loop falls through without `break`). -/
def findClose : List Char → ℤ → ℕ → Option ℕ
  | [], _, _ => Option.none
  | c :: rest, depth, i =>
    if c = '\x7b' then findClose rest (depth + 1) (i + 1)
    else if c = '\x7d' then
      if depth - 1 = 0 then Option.some (i + 1) else findClose rest (depth - 1) (i + 1)
    else findClose rest depth (i + 1)

/-! ### A model of `json.loads` (strict mode, as the source calls it) -/

/-- Whitespace skipped by the JSON decoder. -/
def jsonWsChar (c : Char) : Bool := c == ' ' || c == '\t' || c == '\n' || c == '\r'

/-- Skip JSON whitespace. -/
def skipWs (cs : List Char) : List Char := cs.dropWhile jsonWsChar

/-- Split a maximal leading digit run from the rest. -/
def parseDigits (cs : List Char) : List Char × List Char :=
  (cs.takeWhile Char.isDigit, cs.dropWhile Char.isDigit)

/-- JSON integer part: `0` or a nonzero digit followed by digits. -/
def parseIntPart : List Char → Option (List Char × List Char)
  | [] => Option.none
  | c :: rest =>
    if c = '0' then Option.some (['0'], rest)
    else if c.isDigit then Option.some (c :: (parseDigits rest).1, (parseDigits rest).2)
    else Option.none

/-- `10 ^ n` as a rational. -/
def pow10 (n : ℕ) : ℚ := (10 : ℚ) ^ n

/-- Exponent digits after an optional sign; `Option.none` when no digit
follows (the regex then leaves the exponent out of the number). -/
def parseExpDigits (neg : Bool) (cs : List Char) : Option (Bool × List Char × List Char) :=
  let d := parseDigits cs
  if d.1 = [] then Option.none else Option.some (neg, d.1, d.2)

/-- Optional sign of a JSON exponent. -/
def parseExpSign : List Char → Option (Bool × List Char × List Char)
  | '+' :: rest => parseExpDigits false rest
  | '-' :: rest => parseExpDigits true rest
  | rest => parseExpDigits false rest

/-- A JSON exponent `[eE][+-]?\d+`, if present here. -/
def parseExp : List Char → Option (Bool × List Char × List Char)
  | 'e' :: rest => parseExpSign rest
  | 'E' :: rest => parseExpSign rest
  | _ => Option.none

/-- A JSON number `-?(0|[1-9]\d*)(\.\d+)?([eE][+-]?\d+)?`; ints decode to
Python `int`, anything with a fraction or exponent to `float`. -/
def parseNumber (cs : List Char) : Option (PyVal × List Char) :=
  let sgn := match cs with
    | '-' :: r => (true, r)
    | _ => (false, cs)
  match parseIntPart sgn.2 with
  | Option.none => Option.none
  | Option.some (ip, r1) =>
    let fr := match r1 with
      | '.' :: r =>
        let d := parseDigits r
        if d.1 = [] then (([] : List Char), r1) else (d.1, d.2)
      | _ => (([] : List Char), r1)
    match parseExp fr.2 with
    | Option.none =>
      if fr.1 = [] then
        Option.some (PyVal.int (if sgn.1 then -(digitsVal ip : ℤ) else (digitsVal ip : ℤ)), fr.2)
      else
        let base : ℚ := (digitsVal ip : ℚ) + (digitsVal fr.1 : ℚ) / pow10 fr.1.length
        Option.some (PyVal.float (if sgn.1 then -base else base), fr.2)
    | Option.some (eNeg, ed, r3) =>
      let base : ℚ := (digitsVal ip : ℚ) + (digitsVal fr.1 : ℚ) / pow10 fr.1.length
      let scaled := if eNeg then base / pow10 (digitsVal ed) else base * pow10 (digitsVal ed)
      Option.some (PyVal.float (if sgn.1 then -scaled else scaled), r3)

/-- Value of a hexadecimal digit. -/
def hexDigitVal (c : Char) : Option ℕ :=
  if '0' ≤ c ∧ c ≤ '9' then Option.some (c.toNat - 48)
  else if 'a' ≤ c ∧ c ≤ 'f' then Option.some (c.toNat - 87)
  else if 'A' ≤ c ∧ c ≤ 'F' then Option.some (c.toNat - 55)
  else Option.none

/-- Body of a JSON string after the opening quote, strict mode: raw control
characters are rejected, escapes are decoded, the closing quote ends it. -/
def parseStringAux : List Char → List Char → Option (String × List Char)
  | [], _ => Option.none
  | '"' :: rest, acc => Option.some (String.mk acc.reverse, rest)
  | '\\' :: rest, acc =>
    match rest with
    | '"' :: r => parseStringAux r ('"' :: acc)
    | '\\' :: r => parseStringAux r ('\\' :: acc)
    | '/' :: r => parseStringAux r ('/' :: acc)
    | 'b' :: r => parseStringAux r ('\x08' :: acc)
    | 'f' :: r => parseStringAux r ('\x0c' :: acc)
    | 'n' :: r => parseStringAux r ('\n' :: acc)
    | 'r' :: r => parseStringAux r ('\r' :: acc)
    | 't' :: r => parseStringAux r ('\t' :: acc)
    | 'u' :: a :: b :: c :: d :: r =>
      match hexDigitVal a, hexDigitVal b, hexDigitVal c, hexDigitVal d with
      | Option.some ha, Option.some hb, Option.some hc, Option.some hd =>
        parseStringAux r (Char.ofNat (((ha * 16 + hb) * 16 + hc) * 16 + hd) :: acc)
      | _, _, _, _ => Option.none
    | _ => Option.none
  | c :: rest, acc =>
    if c.toNat < 32 then Option.none else parseStringAux rest (c :: acc)

/-- Insert a key into a decoded object the way Python dicts do: an existing
key keeps its position and takes the new value; a new key is appended. -/
def insertKey : List (String × PyVal) → String → PyVal → List (String × PyVal)
  | [], k, v => [(k, v)]
  | (k0, v0) :: rest, k, v =>
    if k0 = k then (k0, v) :: rest else (k0, v0) :: insertKey rest k v

mutual

/-- A JSON value (leading whitespace allowed), fuel-bounded. -/
def parseValue : ℕ → List Char → Option (PyVal × List Char)
  | 0, _ => Option.none
  | Nat.succ fuel, cs =>
    match skipWs cs with
    | '\x7b' :: rest => parseObjBody fuel rest
    | '[' :: rest => parseArrBody fuel rest
    | '"' :: rest =>
      match parseStringAux rest [] with
      | Option.some (s, r) => Option.some (PyVal.str s, r)
      | Option.none => Option.none
    | 't' :: 'r' :: 'u' :: 'e' :: rest => Option.some (PyVal.bool true, rest)
    | 'f' :: 'a' :: 'l' :: 's' :: 'e' :: rest => Option.some (PyVal.bool false, rest)
    | 'n' :: 'u' :: 'l' :: 'l' :: rest => Option.some (PyVal.none, rest)
    | rest => parseNumber rest

/-- After an opening brace: an empty object or its members. -/
def parseObjBody : ℕ → List Char → Option (PyVal × List Char)
  | 0, _ => Option.none
  | Nat.succ fuel, cs =>
    match skipWs cs with
    | '\x7d' :: rest => Option.some (PyVal.dict [], rest)
    | rest => parseMembers fuel rest []

/-- `"key": value` pairs separated by commas, ended by a closing brace. -/
def parseMembers : ℕ → List Char → List (String × PyVal) → Option (PyVal × List Char)
  | 0, _, _ => Option.none
  | Nat.succ fuel, cs, acc =>
    match skipWs cs with
    | '"' :: rest =>
      match parseStringAux rest [] with
      | Option.some (k, r1) =>
        match skipWs r1 with
        | ':' :: r2 =>
          match parseValue fuel r2 with
          | Option.some (v, r3) =>
            match skipWs r3 with
            | ',' :: r4 => parseMembers fuel r4 (insertKey acc k v)
            | '\x7d' :: r4 => Option.some (PyVal.dict (insertKey acc k v), r4)
            | _ => Option.none
          | Option.none => Option.none
        | _ => Option.none
      | Option.none => Option.none
    | _ => Option.none

/-- After an opening bracket: an empty array or its elements. -/
def parseArrBody : ℕ → List Char → Option (PyVal × List Char)
  | 0, _ => Option.none
  | Nat.succ fuel, cs =>
    match skipWs cs with
    | ']' :: rest => Option.some (PyVal.list [], rest)
    | rest => parseElems fuel rest []

/-- Array elements separated by commas, ended by a closing bracket. -/
def parseElems : ℕ → List Char → List PyVal → Option (PyVal × List Char)
  | 0, _, _ => Option.none
  | Nat.succ fuel, cs, acc =>
    match parseValue fuel cs with
    | Option.some (v, r1) =>
      match skipWs r1 with
      | ',' :: r2 => parseElems fuel r2 (v :: acc)
      | ']' :: r2 => Option.some (PyVal.list (v :: acc).reverse, r2)
      | _ => Option.none
    | Option.none => Option.none

end

/-- `json.loads`: decode one value and require only whitespace to follow.
The fuel is an upper bound on recursion depth; every recursive step consumes
input, so the bound is never the reason a well-formed input fails. -/
def jsonLoads (cs : List Char) : Option PyVal :=
  match parseValue (3 * cs.length + 3) cs with
  | Option.some (v, rest) => if skipWs rest = [] then Option.some v else Option.none
  | Option.none => Option.none

/-- The errors `parser.py` raises (all as `ValueError` at runtime; the spec
names the first two `NotFoundError` and `DecodeError`). `typeError` models an
`AttributeError` from calling `.items()`/`.get` on a non-dict, `valueError`
an error escaping the record-building loop. -/
inductive PyErr where
  | notFound (varName : String)
  | decodeError (varName : String)
  | typeError
  | valueError
deriving DecidableEq

/-- The slice `content[start_pos:end_pos]` handed to the JSON decoder: when
the brace scan falls off the end of the input without closing, `end_pos`
keeps its initial value `start_pos` and the slice is empty, exactly as in
src/parser.py lines 33-45. -/
def jsonSlice (cs : List Char) (start : ℕ) : List Char :=
  let stop := match findClose (cs.drop start) 0 start with
    | Option.some e => e
    | Option.none => start
  (cs.drop start).take (stop - start)

/-- Embedding of `extract_json_object` (src/parser.py lines 11-51). -/
def extract_json_object (content varName : String) : Except PyErr PyVal :=
  match findBrace varName.toList content.toList with
  | Option.none => Except.error (PyErr.notFound varName)
  | Option.some start =>
    match jsonLoads (jsonSlice content.toList start) with
    | Option.some v => Except.ok v
    | Option.none => Except.error (PyErr.decodeError varName)

/-! ### The merger/ranker (src/parser.py lines 107-155) -/

/-- Lookup in a decoded object (Python dict built by `insertKey`, so the
first hit is the only hit). -/
def dictGet (d : List (String × PyVal)) (k : String) : Option PyVal :=
  (d.find? (fun p => p.1 == k)).map Prod.snd

/-- Python `v.get(k, dflt)`: `Option.none` models the `AttributeError` raised
when `v` is not a dict. -/
def pyGet (v : PyVal) (k : String) (dflt : PyVal) : Option PyVal :=
  match v with
  | PyVal.dict d => Option.some ((dictGet d k).getD dflt)
  | _ => Option.none

/-- One student record as built at src/parser.py lines 128-141 (the `Rank`
key is added only after sorting and is carried separately). -/
structure Record where
  Name : PyVal
  RollNo : PyVal
  OverallPseudocode : ℚ
  OverallCoding : ℚ
  OverallDailyTest : ℚ
  Total : ℚ

/-- The loop body for one identity entry (src/parser.py lines 126-143):
look up the student's score set (an absent key yields the empty dict), clean
the three score fields and sum them.  `Option.none` models an exception
(`AttributeError` on a non-dict, or `ValueError` out of `clean_score`). -/
def buildRecord (mo : PyVal) (roll : String) (coreData : PyVal) : Option Record :=
  match pyGet mo roll (PyVal.dict []) with
  | Option.none => Option.none
  | Option.some overallData =>
    match pyGet coreData "Name" (PyVal.str "Unknown") with
    | Option.none => Option.none
    | Option.some name =>
      match pyGet coreData "regdNo" (PyVal.str roll) with
      | Option.none => Option.none
      | Option.some rollNo =>
        match (pyGet overallData "OverallPseudocode" (PyVal.int 0)).bind clean_score with
        | Option.none => Option.none
        | Option.some p =>
          match (pyGet overallData "OverallCoding" (PyVal.int 0)).bind clean_score with
          | Option.none => Option.none
          | Option.some c =>
            match (pyGet overallData "OverallDaily" (PyVal.int 0)).bind clean_score with
            | Option.none => Option.none
            | Option.some d =>
              Option.some
                { Name := name, RollNo := rollNo, OverallPseudocode := p, OverallCoding := c,
                  OverallDailyTest := d, Total := p + c + d }

/-- The full record-building loop over the identity mapping's items in
iteration order. -/
def buildRecords (mo : PyVal) : List (String × PyVal) → Option (List Record)
  | [] => Option.some []
  | (roll, coreData) :: rest =>
    match buildRecord mo roll coreData with
    | Option.none => Option.none
    | Option.some r =>
      match buildRecords mo rest with
      | Option.none => Option.none
      | Option.some rs => Option.some (r :: rs)

/-- Insert into a descending-by-`Total` list, before the first element whose
total is not larger; equal totals keep the earlier-input element first, which
is exactly the stable behaviour of `list.sort(key=..., reverse=True)`. -/
def insertDesc (x : Record) : List Record → List Record
  | [] => [x]
  | y :: ys => if y.Total ≤ x.Total then x :: y :: ys else y :: insertDesc x ys

/-- Stable sort by `Total` descending (src/parser.py line 146). -/
def sortByTotalDesc : List Record → List Record
  | [] => []
  | x :: xs => insertDesc x (sortByTotalDesc xs)

/-- The rank-assignment loop from index 1 on (src/parser.py lines 149-153):
`i` is the 0-based index of the current element, `prevTotal` the previous
element's total, `cur` the rank the previous element received. -/
def assignRanksAux : List Record → ℚ → ℕ → ℕ → List (Record × ℕ)
  | [], _, _, _ => []
  | r :: rest, prevTotal, i, cur =>
    let cur' := if r.Total < prevTotal then i + 1 else cur
    (r, cur') :: assignRanksAux rest r.Total (i + 1) cur'

/-- Rank assignment: the first record gets rank 1, later ones per the loop. -/
def assignRanks : List Record → List (Record × ℕ)
  | [] => []
  | r :: rest => (r, 1) :: assignRanksAux rest r.Total 1 1

/-- The merge/sort/rank pipeline on the two decoded mappings (src/parser.py
lines 122-155), before any of the surrounding extraction. -/
def mergeRank (core overall : List (String × PyVal)) : Option (List (Record × ℕ)) :=
  (buildRecords (PyVal.dict overall) core).map (fun rs => assignRanks (sortByTotalDesc rs))

/-- Python `.items()` on a decoded value; non-dicts raise `AttributeError`. -/
def asItems : PyVal → Except PyErr (List (String × PyVal))
  | PyVal.dict d => Except.ok d
  | _ => Except.error PyErr.typeError

/-- Embedding of `parse_html_file_content` (src/parser.py lines 107-155):
extract `studentCore` and `manualOverall`, build one record per identity
entry, sort by total descending, assign ranks. -/
def parse_html_file_content (content : String) : Except PyErr (List (Record × ℕ)) :=
  match extract_json_object content "studentCore" with
  | Except.error e => Except.error e
  | Except.ok sc =>
    match extract_json_object content "manualOverall" with
    | Except.error e => Except.error e
    | Except.ok mo =>
      match asItems sc with
      | Except.error e => Except.error e
      | Except.ok core =>
        match buildRecords mo core with
        | Option.none => Except.error PyErr.valueError
        | Option.some rs => Except.ok (assignRanks (sortByTotalDesc rs))

/-- Claim C1 failing input: `clean_score(".")`.  The stripped string is not an
absence marker, the regex `^([\d.]+)` matches the bare dot, and `float(".")`
raises `ValueError` -- the call does not return 0.0 and does not return at
all.  The same happens on `"1.2.3"`. -/
theorem clean_score_raises_on_dot :
    clean_score (PyVal.str ".") = Option.none ∧
      clean_score (PyVal.str "1.2.3") = Option.none := by
  constructor <;> rfl

/-- Claim C3: the spec's worked examples hold (`"97(Reattempt)" ↦ 97`,
`"-" ↦ 0`, `"" ↦ 0`, `None ↦ 0`, `85.5 ↦ 85.5`), but the universal rule
fails: on `"1.2.3"` the leading run of digits and a single decimal point is
`"1.2"`, so the spec demands `1.2`, while the code matches `[\d.]+` (multiple
dots allowed) and `float("1.2.3")` raises `ValueError`. -/
theorem clean_score_examples_and_multidot_failure :
    clean_score (PyVal.str "97(Reattempt)") = Option.some 97 ∧
      clean_score (PyVal.str "-") = Option.some 0 ∧
      clean_score (PyVal.str "") = Option.some 0 ∧
      clean_score PyVal.none = Option.some 0 ∧
      clean_score (PyVal.float (171 / 2)) = Option.some (171 / 2) ∧
      clean_score (PyVal.str "1.2.3") = Option.none := by
  refine ⟨?_, by rfl, by rfl, by rfl, by rfl, by rfl⟩
  simp +decide [clean_score, pyFloatOfRun, digitsVal, pyStrip, pyStripWs]

/-- Claim C10: booleans pass the `isinstance(value, (int, float))` check, so
`clean_score` returns `float(b)`: 1.0 for `True`, 0.0 for `False`, never the
defensive 0.0-for-other-types fallback. -/
theorem clean_score_bool :
    ∀ b : Bool, clean_score (PyVal.bool b) = Option.some (if b then 1 else 0) := by
  intro b; cases b <;> rfl

theorem buildRecord_eq_some {mo : PyVal} {roll : String} {coreData : PyVal} {r : Record}
    (h : buildRecord mo roll coreData = Option.some r) :
    ∃ od name rollNo p c d,
      pyGet mo roll (PyVal.dict []) = Option.some od ∧
      pyGet coreData "Name" (PyVal.str "Unknown") = Option.some name ∧
      pyGet coreData "regdNo" (PyVal.str roll) = Option.some rollNo ∧
      (pyGet od "OverallPseudocode" (PyVal.int 0)).bind clean_score = Option.some p ∧
      (pyGet od "OverallCoding" (PyVal.int 0)).bind clean_score = Option.some c ∧
      (pyGet od "OverallDaily" (PyVal.int 0)).bind clean_score = Option.some d ∧
      r = { Name := name, RollNo := rollNo, OverallPseudocode := p, OverallCoding := c,
            OverallDailyTest := d, Total := p + c + d } := by
  unfold buildRecord at h
  rcases h1 : pyGet mo roll (PyVal.dict []) with _ | od
  · simp only [h1] at h; exact Option.noConfusion h
  simp only [h1] at h
  rcases h2 : pyGet coreData "Name" (PyVal.str "Unknown") with _ | name
  · simp only [h2] at h; exact Option.noConfusion h
  simp only [h2] at h
  rcases h3 : pyGet coreData "regdNo" (PyVal.str roll) with _ | rollNo
  · simp only [h3] at h; exact Option.noConfusion h
  simp only [h3] at h
  rcases h4 : (pyGet od "OverallPseudocode" (PyVal.int 0)).bind clean_score with _ | p
  · simp only [h4] at h; exact Option.noConfusion h
  simp only [h4] at h
  rcases h5 : (pyGet od "OverallCoding" (PyVal.int 0)).bind clean_score with _ | c
  · simp only [h5] at h; exact Option.noConfusion h
  simp only [h5] at h
  rcases h6 : (pyGet od "OverallDaily" (PyVal.int 0)).bind clean_score with _ | d
  · simp only [h6] at h; exact Option.noConfusion h
  simp only [h6] at h
  exact ⟨od, name, rollNo, p, c, d, rfl, rfl, rfl, h4, h5, h6, (Option.some.inj h).symm⟩

theorem buildRecords_forall2 {mo : PyVal} {core : List (String × PyVal)} {rs : List Record}
    (h : buildRecords mo core = Option.some rs) :
    List.Forall₂ (fun p r => buildRecord mo p.1 p.2 = Option.some r) core rs := by
  induction core generalizing rs with
  | nil =>
    simp only [buildRecords] at h
    cases h
    exact List.Forall₂.nil
  | cons p rest ih =>
    obtain ⟨roll, coreData⟩ := p
    simp only [buildRecords] at h
    rcases h1 : buildRecord mo roll coreData with _ | r
    · rw [h1] at h; exact Option.noConfusion h
    · rw [h1] at h
      rcases h2 : buildRecords mo rest with _ | rs'
      · rw [h2] at h; exact Option.noConfusion h
      · rw [h2] at h
        cases h
        exact List.Forall₂.cons h1 (ih h2)

theorem forall2_mem_left {α β : Type} {R : α → β → Prop} :
    ∀ {l₁ : List α} {l₂ : List β}, List.Forall₂ R l₁ l₂ → ∀ a ∈ l₁, ∃ b ∈ l₂, R a b := by
  intro l₁ l₂ h
  induction h with
  | nil => intro a ha; exact absurd ha (List.not_mem_nil a)
  | cons hr _ ih =>
    intro a ha
    rcases List.mem_cons.mp ha with rfl | ha'
    · exact ⟨_, List.mem_cons_self _ _, hr⟩
    · obtain ⟨b, hb, hRb⟩ := ih a ha'
      exact ⟨b, List.mem_cons_of_mem _ hb, hRb⟩

theorem forall2_mem_right {α β : Type} {R : α → β → Prop} :
    ∀ {l₁ : List α} {l₂ : List β}, List.Forall₂ R l₁ l₂ → ∀ b ∈ l₂, ∃ a ∈ l₁, R a b := by
  intro l₁ l₂ h
  induction h with
  | nil => intro b hb; exact absurd hb (List.not_mem_nil b)
  | cons hr _ ih =>
    intro b hb
    rcases List.mem_cons.mp hb with rfl | hb'
    · exact ⟨_, List.mem_cons_self _ _, hr⟩
    · obtain ⟨a, ha, hRa⟩ := ih b hb'
      exact ⟨a, List.mem_cons_of_mem _ ha, hRa⟩

theorem insertDesc_perm (x : Record) (l : List Record) : List.Perm (insertDesc x l) (x :: l) := by
  induction l with
  | nil => exact List.Perm.refl _
  | cons y ys ih =>
    unfold insertDesc
    split
    · exact List.Perm.refl _
    · exact (List.Perm.cons y ih).trans (List.Perm.swap x y ys)

theorem sortByTotalDesc_perm (l : List Record) : List.Perm (sortByTotalDesc l) l := by
  induction l with
  | nil => exact List.Perm.refl _
  | cons x xs ih => exact (insertDesc_perm x (sortByTotalDesc xs)).trans (List.Perm.cons x ih)

theorem insertDesc_pairwise {x : Record} {l : List Record}
    (h : List.Pairwise (fun a b => b.Total ≤ a.Total) l) :
    List.Pairwise (fun a b => b.Total ≤ a.Total) (insertDesc x l) := by
  induction l with
  | nil => simp [insertDesc]
  | cons y ys ih =>
    rcases List.pairwise_cons.mp h with ⟨hy, hys⟩
    unfold insertDesc
    split
    · rename_i hc
      refine List.pairwise_cons.mpr ⟨?_, h⟩
      intro z hz
      rcases List.mem_cons.mp hz with rfl | hz'
      · exact hc
      · exact (hy z hz').trans hc
    · rename_i hc
      refine List.pairwise_cons.mpr ⟨?_, ih hys⟩
      intro z hz
      rcases List.mem_cons.mp ((insertDesc_perm x ys).mem_iff.mp hz) with rfl | hz'
      · exact le_of_lt (lt_of_not_le hc)
      · exact hy z hz'

theorem sortByTotalDesc_pairwise (l : List Record) :
    List.Pairwise (fun a b => b.Total ≤ a.Total) (sortByTotalDesc l) := by
  induction l with
  | nil => exact List.Pairwise.nil
  | cons x xs ih => exact insertDesc_pairwise ih

theorem insertDesc_filter (x : Record) (l : List Record) (t : ℚ) :
    (insertDesc x l).filter (fun r => decide (r.Total = t)) =
      if x.Total = t then x :: l.filter (fun r => decide (r.Total = t))
      else l.filter (fun r => decide (r.Total = t)) := by
  induction l with
  | nil => by_cases hx : x.Total = t <;> simp [insertDesc, hx]
  | cons y ys ih =>
    unfold insertDesc
    split
    · rename_i hc
      by_cases hx : x.Total = t <;> simp [List.filter_cons, hx]
    · rename_i hc
      by_cases hx : x.Total = t
      · have hy : ¬ y.Total = t := by
          intro hyt
          exact hc (le_of_eq (hx ▸ hyt))
        simp [List.filter_cons, hx, hy, ih]
      · by_cases hy : y.Total = t <;> simp [List.filter_cons, hx, hy, ih]

theorem sortByTotalDesc_filter (l : List Record) (t : ℚ) :
    (sortByTotalDesc l).filter (fun r => decide (r.Total = t)) =
      l.filter (fun r => decide (r.Total = t)) := by
  induction l with
  | nil => rfl
  | cons x xs ih =>
    by_cases hx : x.Total = t <;>
      simp [sortByTotalDesc, insertDesc_filter, List.filter_cons, hx, ih]

theorem assignRanksAux_map_fst (l : List Record) :
    ∀ (prev : ℚ) (i cur : ℕ), (assignRanksAux l prev i cur).map Prod.fst = l := by
  induction l with
  | nil => intro prev i cur; rfl
  | cons r rest ih =>
    intro prev i cur
    simp only [assignRanksAux, List.map_cons]
    exact congrArg (r :: ·) (ih r.Total (i + 1) _)

theorem assignRanks_map_fst (l : List Record) : (assignRanks l).map Prod.fst = l := by
  cases l with
  | nil => rfl
  | cons r rest =>
    simp only [assignRanks, List.map_cons]
    exact congrArg (r :: ·) (assignRanksAux_map_fst rest r.Total 1 1)

theorem assignRanks_length (l : List Record) : (assignRanks l).length = l.length := by
  have := congrArg List.length (assignRanks_map_fst l)
  simpa using this

theorem pyGet_dict (d : List (String × PyVal)) (k : String) (dflt : PyVal) :
    pyGet (PyVal.dict d) k dflt = Option.some ((dictGet d k).getD dflt) := rfl

theorem buildRecord_missing {overall : List (String × PyVal)} {roll : String}
    {coreData : PyVal} {r : Record}
    (h : buildRecord (PyVal.dict overall) roll coreData = Option.some r)
    (h0 : dictGet overall roll = Option.none) :
    r.OverallPseudocode = 0 ∧ r.OverallCoding = 0 ∧ r.OverallDailyTest = 0 ∧ r.Total = 0 := by
  obtain ⟨od, name, rollNo, p, c, d, hod, hname, hroll, hp, hc, hd, hr⟩ := buildRecord_eq_some h
  have hod' : od = PyVal.dict [] := by
    rw [pyGet_dict, h0] at hod
    exact (Option.some.inj hod).symm
  subst hod'
  have hp0 : p = 0 := by have := hp; simp [pyGet, dictGet, clean_score] at this; exact this.symm
  have hc0 : c = 0 := by have := hc; simp [pyGet, dictGet, clean_score] at this; exact this.symm
  have hd0 : d = 0 := by have := hd; simp [pyGet, dictGet, clean_score] at this; exact this.symm
  subst hr hp0 hc0 hd0
  refine ⟨rfl, rfl, rfl, by norm_num⟩

/-- Claim C4: whenever the merge pipeline returns a record list, it has
exactly one record per identity entry; pointwise, an identity entry whose key
is absent from the score mapping has ITS OWN record built with all three
scores and the total equal to zero, and every built record (so in particular
that one) still appears in the ranked output -- never dropped. -/
theorem mergeRank_length_and_missing {core overall : List (String × PyVal)}
    {rs : List Record} {out : List (Record × ℕ)}
    (hb : buildRecords (PyVal.dict overall) core = Option.some rs)
    (h : mergeRank core overall = Option.some out) :
    out.length = core.length ∧
      (∀ r ∈ rs, ∃ k, (r, k) ∈ out) ∧
      List.Forall₂ (fun (pr : String × PyVal) (r : Record) =>
        dictGet overall pr.1 = Option.none →
          r.OverallPseudocode = 0 ∧ r.OverallCoding = 0 ∧ r.OverallDailyTest = 0 ∧
            r.Total = 0) core rs := by
  unfold mergeRank at h
  rw [hb] at h
  have hout : out = assignRanks (sortByTotalDesc rs) := (Option.some.inj h).symm
  refine ⟨?_, ?_, ?_⟩
  · rw [hout, assignRanks_length]
    rw [(sortByTotalDesc_perm rs).length_eq]
    exact ((buildRecords_forall2 hb).length_eq).symm
  · intro r hrmem
    have hr2 : r ∈ sortByTotalDesc rs := (sortByTotalDesc_perm rs).mem_iff.mpr hrmem
    have hr3 : r ∈ (assignRanks (sortByTotalDesc rs)).map Prod.fst := by
      rw [assignRanks_map_fst]; exact hr2
    obtain ⟨rk, hk, hfst⟩ := List.mem_map.mp hr3
    exact ⟨rk.2, by rw [hout]; exact hfst ▸ hk⟩
  · refine List.Forall₂.imp ?_ (buildRecords_forall2 hb)
    intro pr r hR h0
    exact buildRecord_missing hR h0

/-- Claim C5: in every record the pipeline returns, `Total` is exactly the
sum of the three normalized score components. -/
theorem mergeRank_total_eq_sum {core overall : List (String × PyVal)}
    {out : List (Record × ℕ)} (h : mergeRank core overall = Option.some out) :
    ∀ pr ∈ out,
      (pr : Record × ℕ).1.Total =
        pr.1.OverallPseudocode + pr.1.OverallCoding + pr.1.OverallDailyTest := by
  unfold mergeRank at h
  rcases hb : buildRecords (PyVal.dict overall) core with _ | rs
  · rw [hb] at h; exact Option.noConfusion h
  rw [hb] at h
  have hout : out = assignRanks (sortByTotalDesc rs) := (Option.some.inj h).symm
  intro pr hpr
  have h1 : pr.1 ∈ (assignRanks (sortByTotalDesc rs)).map Prod.fst :=
    List.mem_map_of_mem Prod.fst (hout ▸ hpr)
  rw [assignRanks_map_fst] at h1
  have h2 : pr.1 ∈ rs := (sortByTotalDesc_perm rs).mem_iff.mp h1
  obtain ⟨a, _, hR⟩ := forall2_mem_right (buildRecords_forall2 hb) pr.1 h2
  obtain ⟨od, name, rollNo, p, c, d, _, _, _, _, _, _, hr⟩ := buildRecord_eq_some hR
  rw [hr]

/-- Claim C9: for each identity entry whose value is an object, the record
built for it takes `Name` from the `Name` field with default `"Unknown"`,
and `RollNo` from the `regdNo` field, falling back to the entry's key. -/
theorem buildRecords_name_rollno {overall core rs}
    (hb : buildRecords (PyVal.dict overall) core = Option.some rs) :
    List.Forall₂ (fun (pr : String × PyVal) (r : Record) =>
      ∀ cd, pr.2 = PyVal.dict cd →
        (dictGet cd "Name" = Option.none → r.Name = PyVal.str "Unknown") ∧
        (∀ v, dictGet cd "regdNo" = Option.some v → r.RollNo = v) ∧
        (dictGet cd "regdNo" = Option.none → r.RollNo = PyVal.str pr.1)) core rs := by
  refine List.Forall₂.imp ?_ (buildRecords_forall2 hb)
  intro pr r hR
  intro cd hcd
  obtain ⟨od, name, rollNo, p, c, d, hod, hname, hroll, _, _, _, hr⟩ := buildRecord_eq_some hR
  rw [hcd] at hname hroll
  rw [pyGet_dict] at hname hroll
  have hn : name = (dictGet cd "Name").getD (PyVal.str "Unknown") := (Option.some.inj hname).symm
  have hrn : rollNo = (dictGet cd "regdNo").getD (PyVal.str pr.1) := (Option.some.inj hroll).symm
  subst hr
  refine ⟨?_, ?_, ?_⟩
  · intro h0; show name = PyVal.str "Unknown"; rw [hn, h0]; rfl
  · intro v hv; show rollNo = v; rw [hrn, hv]; rfl
  · intro h0; show rollNo = PyVal.str pr.1; rw [hrn, h0]; rfl

/-- Claim C7: the pipeline output is sorted by total descending, and the sort
is stable -- the records with any fixed total appear in the same order as in
the list built from the identity mapping's iteration order. -/
theorem mergeRank_sorted_and_stable {core overall : List (String × PyVal)}
    {rs : List Record} {out : List (Record × ℕ)}
    (hb : buildRecords (PyVal.dict overall) core = Option.some rs)
    (h : mergeRank core overall = Option.some out) :
    List.Chain' (fun a b : Record × ℕ => b.1.Total ≤ a.1.Total) out ∧
      ∀ t : ℚ, (out.map Prod.fst).filter (fun r => decide (r.Total = t)) =
        rs.filter (fun r => decide (r.Total = t)) := by
  unfold mergeRank at h
  rw [hb] at h
  have hout : out = assignRanks (sortByTotalDesc rs) := (Option.some.inj h).symm
  subst hout
  constructor
  · have hp := sortByTotalDesc_pairwise rs
    rw [← assignRanks_map_fst (sortByTotalDesc rs), List.pairwise_map] at hp
    exact List.Pairwise.chain' hp
  · intro t
    rw [assignRanks_map_fst]
    exact sortByTotalDesc_filter rs t

theorem assignRanksAux_adjacent :
    ∀ (rest : List Record) (prev : ℚ) (i cur : ℕ) (j : ℕ)
      (hj1 : j + 1 < (assignRanksAux rest prev i cur).length),
      ((assignRanksAux rest prev i cur).get ⟨j + 1, hj1⟩).2 =
        if ((assignRanksAux rest prev i cur).get ⟨j + 1, hj1⟩).1.Total <
            ((assignRanksAux rest prev i cur).get ⟨j, Nat.lt_of_succ_lt hj1⟩).1.Total
        then i + j + 2
        else ((assignRanksAux rest prev i cur).get ⟨j, Nat.lt_of_succ_lt hj1⟩).2 := by
  intro rest
  induction rest with
  | nil => intro prev i cur j hj1; simp [assignRanksAux] at hj1
  | cons r rest' ih =>
    intro prev i cur j hj1
    cases rest' with
    | nil => simp [assignRanksAux] at hj1
    | cons r2 rest'' =>
      cases j with
      | zero =>
        simp only [assignRanksAux]
        simp only [List.get_eq_getElem, List.getElem_cons_succ, List.getElem_cons_zero]
      | succ j' =>
        have h2 : j' + 1 < (assignRanksAux (r2 :: rest'') r.Total (i + 1)
            (if r.Total < prev then i + 1 else cur)).length := by
          simp only [assignRanksAux, List.length_cons] at hj1 ⊢
          omega
        have hx := ih r.Total (i + 1) (if r.Total < prev then i + 1 else cur) j' h2
        simp only [assignRanksAux, List.get_eq_getElem, List.getElem_cons_succ] at hx ⊢
        convert hx using 2
        omega

theorem assignRanksAux_count (L : List Record)
    (hL : List.Pairwise (fun a b => b.Total ≤ a.Total) L) :
    ∀ (rest pre : List Record) (prevTotal : ℚ) (cur : ℕ),
      L = pre ++ rest →
      (∀ y ∈ rest, y.Total ≤ prevTotal) →
      (∀ y ∈ pre, prevTotal ≤ y.Total) →
      cur = 1 + L.countP (fun s => decide (prevTotal < s.Total)) →
      assignRanksAux rest prevTotal pre.length cur =
        rest.map (fun r => (r, 1 + L.countP (fun s => decide (r.Total < s.Total)))) := by
  intro rest
  induction rest with
  | nil => intro pre prevTotal cur _ _ _ _; rfl
  | cons r rest' ih =>
    intro pre prevTotal cur hsplit hrest hpre hcur
    obtain ⟨hpre_pw, hcons_pw, hcross⟩ := List.pairwise_append.mp (hsplit ▸ hL)
    obtain ⟨hr_rest, hrest_pw⟩ := List.pairwise_cons.mp hcons_pw
    have hrle : r.Total ≤ prevTotal := hrest r (List.mem_cons_self r rest')
    have hkey : (if r.Total < prevTotal then pre.length + 1 else cur) =
        1 + L.countP (fun s => decide (r.Total < s.Total)) := by
      by_cases hlt : r.Total < prevTotal
      · rw [if_pos hlt]
        have hcount : L.countP (fun s => decide (r.Total < s.Total)) = pre.length := by
          rw [hsplit, List.countP_append]
          have h1 : pre.countP (fun s => decide (r.Total < s.Total)) = pre.length :=
            List.countP_eq_length.mpr
              (fun a ha => decide_eq_true (lt_of_lt_of_le hlt (hpre a ha)))
          have h2 : (r :: rest').countP (fun s => decide (r.Total < s.Total)) = 0 := by
            rw [List.countP_eq_zero]
            intro a ha
            rcases List.mem_cons.mp ha with rfl | ha'
            · simp
            · simp only [decide_eq_true_eq]
              exact not_lt.mpr (hr_rest a ha')
          rw [h1, h2]
          omega
        rw [hcount]
        omega
      · rw [if_neg hlt, hcur]
        have heq : r.Total = prevTotal := le_antisymm hrle (not_lt.mp hlt)
        rw [heq]
    show assignRanksAux (r :: rest') prevTotal pre.length cur = _
    rw [List.map_cons]
    simp only [assignRanksAux]
    rw [hkey]
    have hlen : pre.length + 1 = (pre ++ [r]).length := by
      simp
    have htail := ih (pre ++ [r]) r.Total
      (1 + L.countP (fun s => decide (r.Total < s.Total)))
      (by rw [hsplit, List.append_assoc]; rfl)
      (fun y hy => hr_rest y hy)
      (by
        intro y hy
        rcases List.mem_append.mp hy with hyp | hyr
        · exact le_trans hrle (hpre y hyp)
        · rw [List.mem_singleton.mp hyr])
      rfl
    rw [hlen, htail]

theorem assignRanks_count (L : List Record)
    (hL : List.Pairwise (fun a b => b.Total ≤ a.Total) L) :
    assignRanks L = L.map (fun r => (r, 1 + L.countP (fun s => decide (r.Total < s.Total)))) := by
  cases L with
  | nil => rfl
  | cons r0 rest =>
    have hall : ∀ z ∈ rest, z.Total ≤ r0.Total := (List.pairwise_cons.mp hL).1
    have h0 : (r0 :: rest).countP (fun s => decide (r0.Total < s.Total)) = 0 := by
      rw [List.countP_eq_zero]
      intro a ha
      rcases List.mem_cons.mp ha with rfl | ha'
      · simp
      · simp only [decide_eq_true_eq]
        exact not_lt.mpr (hall a ha')
    show (r0, 1) :: assignRanksAux rest r0.Total 1 1 = _
    rw [List.map_cons, h0]
    have htail := assignRanksAux_count (r0 :: rest) hL rest [r0] r0.Total 1 rfl
      (fun y hy => hall y hy)
      (by intro y hy; rw [List.mem_singleton.mp hy])
      (by rw [h0])
    simp only [List.length_singleton] at htail
    rw [htail]

theorem assignRanks_first (L : List Record) (hne : assignRanks L ≠ []) :
    ((assignRanks L).head hne).2 = 1 := by
  cases L with
  | nil => exact absurd rfl hne
  | cons r0 rest => rfl

theorem assignRanks_adjacent (L : List Record) (j : ℕ)
    (hj1 : j + 1 < (assignRanks L).length) :
    ((assignRanks L).get ⟨j + 1, hj1⟩).2 =
      if ((assignRanks L).get ⟨j + 1, hj1⟩).1.Total <
          ((assignRanks L).get ⟨j, Nat.lt_of_succ_lt hj1⟩).1.Total
      then j + 2 else ((assignRanks L).get ⟨j, Nat.lt_of_succ_lt hj1⟩).2 := by
  cases L with
  | nil => simp [assignRanks] at hj1
  | cons r0 rest =>
    cases rest with
    | nil => simp [assignRanks, assignRanksAux] at hj1
    | cons r1 rest' =>
      cases j with
      | zero =>
        simp only [assignRanks, assignRanksAux]
        simp only [List.get_eq_getElem, List.getElem_cons_succ, List.getElem_cons_zero]
      | succ j' =>
        have h2 : j' + 1 < (assignRanksAux (r1 :: rest') r0.Total 1 1).length := by
          simp only [assignRanks, List.length_cons] at hj1
          omega
        have hx := assignRanksAux_adjacent (r1 :: rest') r0.Total 1 1 j' h2
        simp only [assignRanks, List.get_eq_getElem, List.getElem_cons_succ] at hj1 ⊢
        convert hx using 2
        omega

/-- Claim C6: ranks follow competition ranking.  Each record's rank is one
plus the number of records with strictly greater total; the first record has
rank 1; and each later record's rank is its 1-based position when its total
strictly dropped, and the previous record's rank otherwise. -/
theorem mergeRank_competition_ranking {core overall : List (String × PyVal)}
    {out : List (Record × ℕ)} (h : mergeRank core overall = Option.some out) :
    (∀ pr ∈ out, (pr : Record × ℕ).2 =
        1 + out.countP (fun q => decide (pr.1.Total < q.1.Total))) ∧
      (∀ hne : out ≠ [], (out.head hne).2 = 1) ∧
      ∀ j (hj1 : j + 1 < out.length),
        (out.get ⟨j + 1, hj1⟩).2 =
          if (out.get ⟨j + 1, hj1⟩).1.Total < (out.get ⟨j, Nat.lt_of_succ_lt hj1⟩).1.Total
          then j + 2 else (out.get ⟨j, Nat.lt_of_succ_lt hj1⟩).2 := by
  unfold mergeRank at h
  rcases hb : buildRecords (PyVal.dict overall) core with _ | rs
  · rw [hb] at h; exact Option.noConfusion h
  rw [hb] at h
  have hout : out = assignRanks (sortByTotalDesc rs) := (Option.some.inj h).symm
  subst hout
  refine ⟨?_, assignRanks_first _, assignRanks_adjacent _⟩
  intro pr hpr
  have hchar := assignRanks_count (sortByTotalDesc rs) (sortByTotalDesc_pairwise rs)
  rw [hchar] at hpr
  obtain ⟨r, hrL, hpr_eq⟩ := List.mem_map.mp hpr
  rw [hchar, List.countP_map]
  subst hpr_eq
  rfl

/-- Claim C8: when the identifier's assignment is found but the decoded slice
(including the truncated, never-closing case, which yields the empty slice)
is not valid JSON, extraction fails with `DecodeError`; and an extraction
error makes the whole parse return that error, never a partial record set. -/
theorem extract_decode_error_and_abort (content nm : String) :
    (∀ s, findBrace nm.toList content.toList = Option.some s →
      jsonLoads (jsonSlice content.toList s) = Option.none →
      extract_json_object content nm = Except.error (PyErr.decodeError nm)) ∧
    (∀ e, extract_json_object content "studentCore" = Except.error e →
      parse_html_file_content content = Except.error e) ∧
    (∀ e v, extract_json_object content "studentCore" = Except.ok v →
      extract_json_object content "manualOverall" = Except.error e →
      parse_html_file_content content = Except.error e) := by
  refine ⟨?_, ?_, ?_⟩
  · intro s hfind hj
    simp only [String.toList] at hfind hj
    simp [extract_json_object, String.toList, hfind, hj]
  · intro e he
    simp [parse_html_file_content, he]
  · intro e v hok herr
    simp [parse_html_file_content, hok, herr]

/-- Claim C8 witness: a truncated assignment whose braces never close; the
slice handed to the decoder is empty, decoding fails, extraction reports
`DecodeError` and the whole parse aborts with it. -/
theorem extract_decode_error_and_abort_witness :
    extract_json_object "const studentCore = \x7b\"a\": 1" "studentCore" =
        Except.error (PyErr.decodeError "studentCore") ∧
      parse_html_file_content "const studentCore = \x7b\"a\": 1" =
        Except.error (PyErr.decodeError "studentCore") := by
  have h1 := (extract_decode_error_and_abort "const studentCore = \x7b\"a\": 1" "studentCore").1
    20 (by rfl) (by rfl)
  have h2 := (extract_decode_error_and_abort "const studentCore = \x7b\"a\": 1" "studentCore").2.1
    (PyErr.decodeError "studentCore") h1
  exact ⟨h1, h2⟩

/-- Claim C4 witness: two identities `"A"` and `"B"`, both absent from the
score mapping; the output has one record per identity, each identity's own
record is zero-valued, and both appear in the ranked output. -/
theorem mergeRank_length_and_missing_witness :
    ([(Record.mk (PyVal.str "Unknown") (PyVal.str "A") 0 0 0 0, 1),
      (Record.mk (PyVal.str "Unknown") (PyVal.str "B") 0 0 0 0, 1)].length
        = [(("A" : String), PyVal.dict []), (("B" : String), PyVal.dict [])].length) ∧
      (∀ r ∈ [Record.mk (PyVal.str "Unknown") (PyVal.str "A") 0 0 0 0,
          Record.mk (PyVal.str "Unknown") (PyVal.str "B") 0 0 0 0], ∃ k,
        (r, k) ∈ [(Record.mk (PyVal.str "Unknown") (PyVal.str "A") 0 0 0 0, 1),
          (Record.mk (PyVal.str "Unknown") (PyVal.str "B") 0 0 0 0, 1)]) ∧
      List.Forall₂ (fun (pr : String × PyVal) (r : Record) =>
        dictGet [] pr.1 = Option.none →
          r.OverallPseudocode = 0 ∧ r.OverallCoding = 0 ∧ r.OverallDailyTest = 0 ∧
            r.Total = 0)
        [("A", PyVal.dict []), ("B", PyVal.dict [])]
        [Record.mk (PyVal.str "Unknown") (PyVal.str "A") 0 0 0 0,
         Record.mk (PyVal.str "Unknown") (PyVal.str "B") 0 0 0 0] := by
  have hb : buildRecords (PyVal.dict []) [("A", PyVal.dict []), ("B", PyVal.dict [])] =
      Option.some [Record.mk (PyVal.str "Unknown") (PyVal.str "A") 0 0 0 0,
        Record.mk (PyVal.str "Unknown") (PyVal.str "B") 0 0 0 0] := by
    simp +decide [buildRecords, buildRecord, pyGet, dictGet, clean_score]
  have hm : mergeRank [("A", PyVal.dict []), ("B", PyVal.dict [])] [] =
      Option.some [(Record.mk (PyVal.str "Unknown") (PyVal.str "A") 0 0 0 0, 1),
        (Record.mk (PyVal.str "Unknown") (PyVal.str "B") 0 0 0 0, 1)] := by
    simp +decide [mergeRank, buildRecords, buildRecord, pyGet, dictGet, clean_score]
    norm_num [sortByTotalDesc, insertDesc, assignRanks, assignRanksAux]
  exact mergeRank_length_and_missing hb hm

/-- Claim C5 witness: the spec's extractor scenario scores (50, "-", 30
annotated): the record's total is the sum of its three components. -/
theorem mergeRank_total_eq_sum_witness :
    ((Record.mk (PyVal.str "A") (PyVal.str "R1") 50 0 30 80, 1) : Record × ℕ).1.Total =
      ((Record.mk (PyVal.str "A") (PyVal.str "R1") 50 0 30 80, 1) : Record × ℕ).1.OverallPseudocode +
        ((Record.mk (PyVal.str "A") (PyVal.str "R1") 50 0 30 80, 1) : Record × ℕ).1.OverallCoding +
        ((Record.mk (PyVal.str "A") (PyVal.str "R1") 50 0 30 80, 1) : Record × ℕ).1.OverallDailyTest := by
  have hm : mergeRank [("R1", PyVal.dict [("Name", PyVal.str "A")])]
      [("R1", PyVal.dict [("OverallPseudocode", PyVal.int 50),
        ("OverallCoding", PyVal.str "-"), ("OverallDaily", PyVal.str "30(Late)")])] =
      Option.some [(Record.mk (PyVal.str "A") (PyVal.str "R1") 50 0 30 80, 1)] := by
    simp +decide [mergeRank, buildRecords, buildRecord, pyGet, dictGet, clean_score,
      pyStrip, pyStripWs, pyFloatOfRun, digitsVal]
    norm_num [sortByTotalDesc, insertDesc, assignRanks, assignRanksAux]
  exact mergeRank_total_eq_sum hm
    ((Record.mk (PyVal.str "A") (PyVal.str "R1") 50 0 30 80, 1) : Record × ℕ)
    (List.mem_singleton.mpr rfl)

/-- Claim C6 witness: the spec's tie scenario, totals 90, 90, 80 giving
ranks 1, 1, 3; the competition-ranking properties hold of the output. -/
theorem mergeRank_competition_ranking_witness :
    ([(Record.mk (PyVal.str "Unknown") (PyVal.str "A") 90 0 0 90, 1),
      (Record.mk (PyVal.str "Unknown") (PyVal.str "B") 90 0 0 90, 1),
      (Record.mk (PyVal.str "Unknown") (PyVal.str "C") 80 0 0 80, 3)].map Prod.snd
        = [1, 1, 3]) ∧
      ∀ pr ∈ [(Record.mk (PyVal.str "Unknown") (PyVal.str "A") 90 0 0 90, 1),
        (Record.mk (PyVal.str "Unknown") (PyVal.str "B") 90 0 0 90, 1),
        (Record.mk (PyVal.str "Unknown") (PyVal.str "C") 80 0 0 80, 3)],
        (pr : Record × ℕ).2 =
          1 + List.countP (fun q => decide (pr.1.Total < q.1.Total))
            [(Record.mk (PyVal.str "Unknown") (PyVal.str "A") 90 0 0 90, 1),
             (Record.mk (PyVal.str "Unknown") (PyVal.str "B") 90 0 0 90, 1),
             (Record.mk (PyVal.str "Unknown") (PyVal.str "C") 80 0 0 80, 3)] := by
  have hm : mergeRank
      [("A", PyVal.dict []), ("B", PyVal.dict []), ("C", PyVal.dict [])]
      [("A", PyVal.dict [("OverallPseudocode", PyVal.int 90)]),
       ("B", PyVal.dict [("OverallPseudocode", PyVal.int 90)]),
       ("C", PyVal.dict [("OverallPseudocode", PyVal.int 80)])] =
      Option.some
        [(Record.mk (PyVal.str "Unknown") (PyVal.str "A") 90 0 0 90, 1),
         (Record.mk (PyVal.str "Unknown") (PyVal.str "B") 90 0 0 90, 1),
         (Record.mk (PyVal.str "Unknown") (PyVal.str "C") 80 0 0 80, 3)] := by
    simp +decide [mergeRank, buildRecords, buildRecord, pyGet, dictGet, clean_score]
    norm_num [sortByTotalDesc, insertDesc, assignRanks, assignRanksAux]
  exact ⟨rfl, (mergeRank_competition_ranking hm).1⟩

/-- Claim C7 witness: identities iterate C, A, B with totals 80, 90, 90; the
output is sorted 90, 90, 80, and the two tied records keep their iteration
order (A before B). -/
theorem mergeRank_sorted_and_stable_witness :
    List.Chain' (fun a b : Record × ℕ => b.1.Total ≤ a.1.Total)
      [(Record.mk (PyVal.str "Unknown") (PyVal.str "A") 90 0 0 90, 1),
       (Record.mk (PyVal.str "Unknown") (PyVal.str "B") 90 0 0 90, 1),
       (Record.mk (PyVal.str "Unknown") (PyVal.str "C") 80 0 0 80, 3)] ∧
      ∀ t : ℚ,
        ([(Record.mk (PyVal.str "Unknown") (PyVal.str "A") 90 0 0 90, 1),
          (Record.mk (PyVal.str "Unknown") (PyVal.str "B") 90 0 0 90, 1),
          (Record.mk (PyVal.str "Unknown") (PyVal.str "C") 80 0 0 80, 3)].map
            Prod.fst).filter (fun r => decide (r.Total = t)) =
          [Record.mk (PyVal.str "Unknown") (PyVal.str "C") 80 0 0 80,
           Record.mk (PyVal.str "Unknown") (PyVal.str "A") 90 0 0 90,
           Record.mk (PyVal.str "Unknown") (PyVal.str "B") 90 0 0 90].filter
            (fun r => decide (r.Total = t)) := by
  have hb : buildRecords
      (PyVal.dict
        [("A", PyVal.dict [("OverallPseudocode", PyVal.int 90)]),
         ("B", PyVal.dict [("OverallPseudocode", PyVal.int 90)]),
         ("C", PyVal.dict [("OverallPseudocode", PyVal.int 80)])])
      [("C", PyVal.dict []), ("A", PyVal.dict []), ("B", PyVal.dict [])] =
      Option.some
        [Record.mk (PyVal.str "Unknown") (PyVal.str "C") 80 0 0 80,
         Record.mk (PyVal.str "Unknown") (PyVal.str "A") 90 0 0 90,
         Record.mk (PyVal.str "Unknown") (PyVal.str "B") 90 0 0 90] := by
    simp +decide [buildRecords, buildRecord, pyGet, dictGet, clean_score]
  have hm : mergeRank
      [("C", PyVal.dict []), ("A", PyVal.dict []), ("B", PyVal.dict [])]
      [("A", PyVal.dict [("OverallPseudocode", PyVal.int 90)]),
       ("B", PyVal.dict [("OverallPseudocode", PyVal.int 90)]),
       ("C", PyVal.dict [("OverallPseudocode", PyVal.int 80)])] =
      Option.some
        [(Record.mk (PyVal.str "Unknown") (PyVal.str "A") 90 0 0 90, 1),
         (Record.mk (PyVal.str "Unknown") (PyVal.str "B") 90 0 0 90, 1),
         (Record.mk (PyVal.str "Unknown") (PyVal.str "C") 80 0 0 80, 3)] := by
    simp +decide [mergeRank, buildRecords, buildRecord, pyGet, dictGet, clean_score]
    norm_num [sortByTotalDesc, insertDesc, assignRanks, assignRanksAux]
  exact mergeRank_sorted_and_stable hb hm

/-- Claim C9 witness: identity `"A"` carries a `regdNo` and no `Name`,
identity `"B"` carries neither: the records default `Name` to `"Unknown"`,
take `RollNo` from `regdNo` when present and from the key otherwise. -/
theorem buildRecords_name_rollno_witness :
    List.Forall₂ (fun (pr : String × PyVal) (r : Record) =>
      ∀ cd, pr.2 = PyVal.dict cd →
        (dictGet cd "Name" = Option.none → r.Name = PyVal.str "Unknown") ∧
        (∀ v, dictGet cd "regdNo" = Option.some v → r.RollNo = v) ∧
        (dictGet cd "regdNo" = Option.none → r.RollNo = PyVal.str pr.1))
      [("A", PyVal.dict [("regdNo", PyVal.str "R7")]), ("B", PyVal.dict [])]
      [Record.mk (PyVal.str "Unknown") (PyVal.str "R7") 0 0 0 0,
       Record.mk (PyVal.str "Unknown") (PyVal.str "B") 0 0 0 0] := by
  have hb : buildRecords (PyVal.dict [])
      [("A", PyVal.dict [("regdNo", PyVal.str "R7")]), ("B", PyVal.dict [])] =
      Option.some
        [Record.mk (PyVal.str "Unknown") (PyVal.str "R7") 0 0 0 0,
         Record.mk (PyVal.str "Unknown") (PyVal.str "B") 0 0 0 0] := by
    simp +decide [buildRecords, buildRecord, pyGet, dictGet, clean_score]
  exact buildRecords_name_rollno hb

theorem ws_not_ident {c : Char} (h : regexWs c = true) : isIdentChar c = false := by
  simp only [regexWs, Bool.or_eq_true, beq_iff_eq] at h
  rcases h with (((((rfl | rfl) | rfl) | rfl) | rfl) | rfl) <;> rfl

theorem tryMatch_nil (nm : List Char) : tryMatch nm [] = Option.none := rfl

theorem wsRun_append (b : Char) (t : List Char) (hb : regexWs b = false) :
    ∀ u : List Char, (∀ c ∈ u, regexWs c = true) → wsRun (u ++ b :: t) = u.length := by
  intro u
  induction u with
  | nil => intro _; simp [wsRun, List.takeWhile_cons, hb]
  | cons c u' ih =>
    intro hu
    have hc : regexWs c = true := hu c (List.mem_cons_self c u')
    have ih' := ih (fun d hd => hu d (List.mem_cons_of_mem c hd))
    simp only [wsRun, List.cons_append, List.takeWhile_cons, hc, if_true, List.length_cons]
    simp only [wsRun] at ih'
    omega

theorem drop_wsRun (r : List Char) : r.drop (wsRun r) = r.dropWhile regexWs := by
  rw [wsRun]
  nth_rewrite 2 [← List.takeWhile_append_dropWhile (p := regexWs) (l := r)]
  rw [List.drop_left]

theorem tryMatch_of_assign {nm : List Char} (hid : IsIdent nm)
    {u v w rest : List Char} (hu : u ≠ []) (huw : ∀ c ∈ u, regexWs c = true)
    (hvw : ∀ c ∈ v, regexWs c = true) (hww : ∀ c ∈ w, regexWs c = true) :
    tryMatch nm ("const".toList ++ (u ++ (nm ++ (v ++ '=' :: (w ++ '\x7b' :: rest)))))
      ≠ Option.none := by
  obtain ⟨hne, hall⟩ := hid
  obtain ⟨nmh, nmt, rfl⟩ := List.exists_cons_of_ne_nil hne
  have hnmh : regexWs nmh = false := by
    rcases hr : regexWs nmh with _ | _
    · rfl
    · have hx := ws_not_ident hr
      rw [hall nmh (List.mem_cons_self nmh nmt)] at hx
      exact absurd hx (by simp)
  have h1 : ("const".toList).isPrefixOf
      ("const".toList ++ (u ++ ((nmh :: nmt) ++ (v ++ '=' :: (w ++ '\x7b' :: rest))))) = true :=
    List.isPrefixOf_iff_prefix.mpr (List.prefix_append _ _)
  have h2 : ("const".toList ++ (u ++ ((nmh :: nmt) ++ (v ++ '=' :: (w ++ '\x7b' :: rest))))).drop 5
      = u ++ ((nmh :: nmt) ++ (v ++ '=' :: (w ++ '\x7b' :: rest))) := by
    have h5 : (5 : ℕ) = ("const".toList).length := rfl
    rw [h5, List.drop_left]
  have h3 : wsRun (u ++ ((nmh :: nmt) ++ (v ++ '=' :: (w ++ '\x7b' :: rest)))) = u.length := by
    have hx := wsRun_append nmh (nmt ++ (v ++ '=' :: (w ++ '\x7b' :: rest))) hnmh u huw
    simpa using hx
  have hul : ¬ u.length = 0 := by
    intro h0
    exact hu (List.length_eq_zero.mp h0)
  have h4 : (u ++ ((nmh :: nmt) ++ (v ++ '=' :: (w ++ '\x7b' :: rest)))).drop u.length
      = (nmh :: nmt) ++ (v ++ '=' :: (w ++ '\x7b' :: rest)) := List.drop_left _ _
  have h5 : (nmh :: nmt).isPrefixOf
      ((nmh :: nmt) ++ (v ++ '=' :: (w ++ '\x7b' :: rest))) = true :=
    List.isPrefixOf_iff_prefix.mpr (List.prefix_append _ _)
  have h6 : ((nmh :: nmt) ++ (v ++ '=' :: (w ++ '\x7b' :: rest))).drop (nmh :: nmt).length
      = v ++ '=' :: (w ++ '\x7b' :: rest) := List.drop_left _ _
  have h7 : wsRun (v ++ '=' :: (w ++ '\x7b' :: rest)) = v.length :=
    wsRun_append '=' (w ++ '\x7b' :: rest) rfl v hvw
  have h8 : (v ++ '=' :: (w ++ '\x7b' :: rest)).drop v.length
      = '=' :: (w ++ '\x7b' :: rest) := List.drop_left _ _
  have h9 : wsRun (w ++ '\x7b' :: rest) = w.length := wsRun_append '\x7b' rest rfl w hww
  have h10 : (w ++ '\x7b' :: rest).drop w.length = '\x7b' :: rest := List.drop_left _ _
  simp only [tryMatch, h1, if_true, h2, h3, if_neg hul, h4, h5, h6, h7, h8, h9, h10]
  simp

theorem assign_of_tryMatch {nm cs : List Char} {k : ℕ}
    (h : tryMatch nm cs = Option.some k) : ConstAssignAt cs nm 0 := by
  unfold tryMatch at h
  split at h
  case isFalse => exact Option.noConfusion h
  rename_i hpre
  obtain ⟨t1, ht1⟩ := List.isPrefixOf_iff_prefix.mp hpre
  have hdrop5 : cs.drop 5 = t1 := by
    rw [← ht1]
    have h5 : (5 : ℕ) = ("const".toList).length := rfl
    rw [h5, List.drop_left]
  rw [hdrop5] at h
  simp only [] at h
  split at h
  case isTrue => exact Option.noConfusion h
  rename_i hw1
  rw [drop_wsRun t1] at h
  split at h
  case isFalse => exact Option.noConfusion h
  rename_i hnmp
  obtain ⟨t2, ht2⟩ := List.isPrefixOf_iff_prefix.mp hnmp
  have hdropnm : (t1.dropWhile regexWs).drop nm.length = t2 := by
    rw [← ht2, List.drop_left]
  rw [hdropnm, drop_wsRun t2] at h
  split at h
  case h_2 => exact Option.noConfusion h
  case h_1 r5 heq2 =>
    rw [drop_wsRun r5] at h
    split at h
    case h_2 => exact Option.noConfusion h
    case h_1 tail heq3 =>
      refine ⟨t1.takeWhile regexWs, t2.takeWhile regexWs, r5.takeWhile regexWs, tail,
        ?_, ?_, ?_, ?_, ?_⟩
      · rw [List.drop_zero, ← ht1]
        congr 1
        nth_rewrite 1 [← List.takeWhile_append_dropWhile (p := regexWs) (l := t1)]
        congr 1
        rw [← ht2]
        congr 1
        nth_rewrite 1 [← List.takeWhile_append_dropWhile (p := regexWs) (l := t2)]
        congr 1
        rw [heq2]
        congr 1
        nth_rewrite 1 [← List.takeWhile_append_dropWhile (p := regexWs) (l := r5)]
        rw [heq3]
      · intro h0
        rw [wsRun, h0] at hw1
        exact hw1 rfl
      · exact fun c hc => List.mem_takeWhile_imp hc
      · exact fun c hc => List.mem_takeWhile_imp hc
      · exact fun c hc => List.mem_takeWhile_imp hc

theorem tryMatch_none_iff {nm : List Char} (hid : IsIdent nm) (cs : List Char) :
    tryMatch nm cs = Option.none ↔ ¬ ConstAssignAt cs nm 0 := by
  constructor
  · intro hnone hassign
    obtain ⟨u, v, w, rest, hsplit, hu, huw, hvw, hww⟩ := hassign
    rw [List.drop_zero] at hsplit
    rw [hsplit] at hnone
    exact tryMatch_of_assign hid hu huw hvw hww hnone
  · intro hna
    rcases hmt : tryMatch nm cs with _ | k
    · rfl
    · exact absurd (assign_of_tryMatch hmt) hna

theorem constAssignAt_drop (cs nm : List Char) (i : ℕ) :
    ConstAssignAt cs nm i ↔ ConstAssignAt (cs.drop i) nm 0 := by
  simp [ConstAssignAt, List.drop_zero]

theorem findBrace_none_iff (nm : List Char) :
    ∀ cs : List Char, findBrace nm cs = Option.none ↔
      ∀ i, tryMatch nm (cs.drop i) = Option.none := by
  intro cs
  induction cs with
  | nil =>
    simp only [findBrace, List.drop_nil]
    exact ⟨fun _ _ => tryMatch_nil nm, fun _ => trivial⟩
  | cons c cs' ih =>
    constructor
    · intro h i
      have hsplit : tryMatch nm (c :: cs') = Option.none ∧ findBrace nm cs' = Option.none := by
        rcases hm : tryMatch nm (c :: cs') with _ | k
        · rw [findBrace, hm] at h
          exact ⟨rfl, Option.map_eq_none'.mp h⟩
        · rw [findBrace, hm] at h
          exact Option.noConfusion h
      cases i with
      | zero => exact hsplit.1
      | succ i' => exact (ih.mp hsplit.2) i'
    · intro hall
      have h0 := hall 0
      rw [List.drop_zero] at h0
      rw [findBrace, h0]
      have htail : findBrace nm cs' = Option.none :=
        ih.mpr (fun i => hall (i + 1))
      rw [htail]
      rfl

theorem notFound_iff_findBrace (content varName : String) :
    extract_json_object content varName = Except.error (PyErr.notFound varName) ↔
      findBrace varName.toList content.toList = Option.none := by
  constructor
  · intro h
    rcases hf : findBrace varName.toList content.toList with _ | s
    · rfl
    · exfalso
      simp only [extract_json_object, hf] at h
      rcases hj : jsonLoads (jsonSlice content.toList s) with _ | v
      · simp only [hj] at h
        exact PyErr.noConfusion (Except.error.inj h)
      · simp only [hj] at h
        exact Except.noConfusion h
  · intro hf
    simp only [extract_json_object, hf]

/-- Claim C2 (amended): for a plain identifier, extraction reports
`NotFoundError` exactly when no occurrence of the pattern -- the keyword
`const`, at least one whitespace character, the identifier, then `=` and an
opening brace each preceded by optional whitespace -- exists in the text.
(The spec's claim that the keyword is optional fails; see the
counterexample.) -/
theorem extract_notFound_iff_no_const_assign (content varName : String)
    (hid : IsIdent varName.toList) :
    extract_json_object content varName = Except.error (PyErr.notFound varName) ↔
      ¬ ∃ i, ConstAssignAt content.toList varName.toList i := by
  rw [notFound_iff_findBrace, findBrace_none_iff]
  constructor
  · intro hall ⟨i, hi⟩
    have := (tryMatch_none_iff hid (content.toList.drop i)).mp (hall i)
    exact this ((constAssignAt_drop content.toList varName.toList i).mp hi)
  · intro hnone i
    refine (tryMatch_none_iff hid (content.toList.drop i)).mpr ?_
    intro hassign
    exact hnone ⟨i, (constAssignAt_drop content.toList varName.toList i).mpr hassign⟩

/-- Claim C2 counterexample: in `"studentCore = \x7b\x7d"` the identifier,
`=` and brace occur with no declaration keyword; under the spec's
keyword-optional pattern an occurrence exists, yet the code raises
`NotFoundError` because its regex demands `const` plus whitespace. -/
theorem extract_keyword_required_counterexample :
    SpecAssignAt "studentCore = \x7b\x7d".toList "studentCore".toList 0 ∧
      extract_json_object "studentCore = \x7b\x7d" "studentCore" =
        Except.error (PyErr.notFound "studentCore") := by
  constructor
  · exact Or.inr ⟨[' '], [' '], ['\x7d'], by decide, by decide, by decide⟩
  · rfl

/-- Claim C2 witness: `"hello"` contains no `const`-assignment of
`studentCore`, and extraction indeed reports `NotFoundError`. -/
theorem extract_notFound_iff_no_const_assign_witness :
    ¬ ∃ i, ConstAssignAt "hello".toList "studentCore".toList i :=
  (extract_notFound_iff_no_const_assign "hello" "studentCore"
    ⟨by decide, by decide⟩).mp (by rfl)

end CT3
